import Mathlib

/-!
Verification of the layer-container composition engine of
`neon/layers/container.py` (Nervana neon): a shallow embedding of the
container data model (`Sequential`, `Tree`, `MergeBroadcast`,
`ResidualModule`, `Multicost`) and proofs about its construction-time
invariants and forward/backward propagation behaviour.
-/

namespace Neon

/-! ## Nested layer lists and `flatten` (source lines 23-29)

`flatten(item)` yields atoms of an arbitrarily nested list structure in
depth-first, left-to-right order:

    def flatten(item):
        if hasattr(item, '__iter__'):
            for i in iter(item):
                for j in flatten(i):
                    yield j
        else:
            yield item
-/

/-- An arbitrarily nested list: an atom (a layer object, which is not
iterable) or an iterable of nested lists. -/
inductive NestedList (α : Type) where
  | leaf : α → NestedList α
  | node : List (NestedList α) → NestedList α

mutual

/-- Embedding of `flatten` from the source: a leaf yields itself, a node
yields the concatenation of the flattenings of its elements. -/
def flatten {α : Type} : NestedList α → List α
  | .leaf a => [a]
  | .node l => flattenL l

/-- The `for i in iter(item)` loop of `flatten`, over the element list. -/
def flattenL {α : Type} : List (NestedList α) → List α
  | [] => []
  | x :: xs => flatten x ++ flattenL xs

end

/-- `Sequential.__init__` (source lines 103-107) stores
`self.layers = [l for l in flatten(layers)]`. -/
def Sequential.layersOf {α : Type} (input : NestedList α) : List α :=
  flatten input

mutual

/-- Defined from the spec's words: the depth-first left-to-right traversal
order of a nested structure, computed with an explicit accumulator
(visit the atom, then continue; for a node, traverse children left to
right before the continuation). -/
def dfsAcc {α : Type} : NestedList α → List α → List α
  | .leaf a, acc => a :: acc
  | .node l, acc => dfsAccL l acc

/-- Depth-first traversal of a list of siblings, left to right, with
accumulator. -/
def dfsAccL {α : Type} : List (NestedList α) → List α → List α
  | [], acc => acc
  | x :: xs, acc => dfsAcc x (dfsAccL xs acc)

end

/-- Depth-first left-to-right traversal order. -/
def dfsOrder {α : Type} (t : NestedList α) : List α :=
  dfsAcc t []

mutual

/-- Nesting depth of a nested list: an atom has depth 0, a node has depth
one more than the maximum depth of its elements. -/
def depthNL {α : Type} : NestedList α → Nat
  | .leaf _ => 0
  | .node l => 1 + depthL l

/-- Maximum depth over a list of nested lists. -/
def depthL {α : Type} : List (NestedList α) → Nat
  | [] => 0
  | x :: xs => max (depthNL x) (depthL xs)

end

mutual

theorem dfsAcc_eq_flatten {α : Type} :
    ∀ (t : NestedList α) (acc : List α), dfsAcc t acc = flatten t ++ acc
  | .leaf a, acc => by simp [dfsAcc, flatten]
  | .node l, acc => by
      simp [dfsAcc, flatten, dfsAccL_eq_flattenL l acc]

theorem dfsAccL_eq_flattenL {α : Type} :
    ∀ (l : List (NestedList α)) (acc : List α), dfsAccL l acc = flattenL l ++ acc
  | [], acc => by simp [dfsAccL, flattenL]
  | x :: xs, acc => by
      simp [dfsAccL, flattenL, dfsAcc_eq_flatten x, dfsAccL_eq_flattenL xs acc]

end

/-- Claim C6: for every Sequential constructed from an arbitrarily nested
list of layers with nesting depth at least 2, the flattened ordered layer
sequence stored by the container (`self.layers = [l for l in
flatten(layers)]`) equals the depth-first left-to-right traversal order
of the original nested structure. -/
theorem sequential_layers_dfs_order (input : NestedList Nat) (h : 2 ≤ depthNL input) :
    Sequential.layersOf input = dfsOrder input := by
  unfold Sequential.layersOf dfsOrder
  rw [dfsAcc_eq_flatten]
  simp

/-- Witness for C6: a concretely nested input of depth 2. -/
theorem sequential_layers_dfs_order_witness :
    2 ≤ depthNL (NestedList.node [.node [.leaf 1, .leaf 2], .leaf 3]) ∧
      Sequential.layersOf (NestedList.node [.node [.leaf 1, .leaf 2], .leaf 3]) =
        dfsOrder (NestedList.node [.node [.leaf 1, .leaf 2], .leaf 3]) :=
  ⟨by decide, sequential_layers_dfs_order _ (by decide)⟩

/-! ## Tree per-branch beta computation (source lines 282-308)

`Tree.__init__` computes per-branch accumulation flags:

    self.betas = []
    next_root = None
    for l in reversed(self.layers):
        root = l.layers[0]
        beta = 1.0 if (root is next_root or type(root) is not BranchNode) else 0.0
        next_root = root
        self.betas.append(beta)
    self.betas.reverse()

We model a branch by its root (first stored layer): either a `BranchNode`
instance, compared by identity (modelled by a numeric identity tag), or
any other layer object. -/

/-- The first stored layer of a branch `Sequential`: a `BranchNode`
instance (identified by its object identity) or another layer object. -/
inductive Root where
  | branchNode (id : Nat)
  | layer (id : Nat)
deriving DecidableEq, Repr

/-- `type(root) is BranchNode`. -/
def Root.isBN : Root → Bool
  | .branchNode _ => true
  | .layer _ => false

/-- The loop body of the beta computation: iterates over the reversed
branch roots carrying `next_root` (initially `None`), emitting
`1.0 if (root is next_root or type(root) is not BranchNode) else 0.0`. -/
def betasLoop : List Root → Option Root → List ℚ
  | [], _ => []
  | r :: rs, next =>
      (if some r = next ∨ r.isBN = false then (1 : ℚ) else 0) :: betasLoop rs (some r)

/-- `Tree.__init__`'s betas: run the loop over the reversed branch-root
list, then reverse the accumulated results. -/
def computeBetas (roots : List Root) : List ℚ :=
  (betasLoop roots.reverse none).reverse

/-- The value of `next_root` after the loop has processed the roots `xs`
in order, having started with `next_root = next`. -/
def nextAfter : List Root → Option Root → Option Root
  | [], next => next
  | x :: xs, _ => nextAfter xs (some x)

theorem nextAfter_append_single (xs : List Root) (a : Root) (next : Option Root) :
    nextAfter (xs ++ [a]) next = some a := by
  induction xs generalizing next with
  | nil => rfl
  | cons x xs ih => simpa [nextAfter] using ih (some x)

theorem betasLoop_append (xs ys : List Root) (next : Option Root) :
    betasLoop (xs ++ ys) next = betasLoop xs next ++ betasLoop ys (nextAfter xs next) := by
  induction xs generalizing next with
  | nil => simp [betasLoop, nextAfter]
  | cons x xs ih =>
      simp only [List.cons_append, betasLoop, List.append_eq, ih, nextAfter]

theorem computeBetas_nil : computeBetas [] = [] := rfl

/-- One step of the beta computation, phrased on the unreversed branch
list: the head branch's beta is 1 iff its root equals the following
branch's root or is not a `BranchNode`. -/
theorem computeBetas_cons (r : Root) (rs : List Root) :
    computeBetas (r :: rs) =
      (if some r = rs.head? ∨ r.isBN = false then (1 : ℚ) else 0) :: computeBetas rs := by
  have hrev : (r :: rs).reverse = rs.reverse ++ [r] := by simp
  have hlast : nextAfter rs.reverse none = rs.head? := by
    cases rs with
    | nil => rfl
    | cons a as =>
        simp [List.reverse_cons, nextAfter_append_single]
  unfold computeBetas
  rw [hrev, betasLoop_append, hlast]
  simp [betasLoop]

theorem computeBetas_length (roots : List Root) :
    (computeBetas roots).length = roots.length := by
  induction roots with
  | nil => rfl
  | cons r rs ih => rw [computeBetas_cons]; simp [ih]

/-- The (root, beta) pairs of a Tree, branch by branch. -/
def pairsB (roots : List Root) : List (Root × ℚ) :=
  roots.zip (computeBetas roots)

theorem pairsB_cons (r : Root) (rs : List Root) :
    pairsB (r :: rs) =
      (r, if some r = rs.head? ∨ r.isBN = false then (1 : ℚ) else 0) :: pairsB rs := by
  unfold pairsB
  rw [computeBetas_cons]
  rfl

/-- The identity tags of the `BranchNode` roots occurring in a Tree. -/
def bnIds (roots : List Root) : List Nat :=
  roots.filterMap fun r => match r with
    | .branchNode i => some i
    | .layer _ => none

/-- Number of branches rooted at `BranchNode` instance `i` that were
assigned beta `0.0`. -/
def zerosFor (roots : List Root) (i : Nat) : Nat :=
  ((pairsB roots).filter fun p => decide (p.1 = Root.branchNode i) && decide (p.2 = 0)).length

/-- The claim's invariant, as stated: for every `BranchNode` instance that
roots some branch, exactly one branch rooted at it has beta `0.0` (so all
others sharing it have beta `1.0`, betas being 0/1 valued), and every
branch whose root is not a `BranchNode` (in particular the trunk) has
beta `1.0`. -/
def betaSpecOk (roots : List Root) : Bool :=
  ((bnIds roots).all fun i => zerosFor roots i == 1) &&
  ((pairsB roots).all fun p => p.1.isBN || decide (p.2 = 1))

/-- Whether an optional root is a `BranchNode`. -/
def isBNopt : Option Root → Bool
  | some r => r.isBN
  | none => false

/-- The documented branch-ordering precondition of `Tree` ("the branches
must be provided ... in the order the branch nodes are encountered"):
branches rooted at the same `BranchNode` instance occupy contiguous
positions, i.e. between two branches with the same `BranchNode` root
every branch has that same root. -/
def Contiguous (roots : List Root) : Prop :=
  ∀ j, j < roots.length → ∀ m, m ≤ j → ∀ i, i ≤ m →
    roots[i]? = roots[j]? → isBNopt roots[i]? = true → roots[m]? = roots[i]?

/-- Executable check of the branch-ordering precondition. -/
def contiguousB (roots : List Root) : Bool :=
  (List.range roots.length).all fun j =>
    (List.range (j + 1)).all fun m =>
      (List.range (m + 1)).all fun i =>
        decide (roots[i]? = roots[j]? → isBNopt roots[i]? = true → roots[m]? = roots[i]?)

theorem contiguousB_iff (roots : List Root) :
    contiguousB roots = true ↔ Contiguous roots := by
  unfold contiguousB Contiguous
  simp only [List.all_eq_true, List.mem_range, Nat.lt_succ_iff, decide_eq_true_eq]

instance (roots : List Root) : Decidable (Contiguous roots) :=
  decidable_of_iff (contiguousB roots = true) (contiguousB_iff roots)

theorem Contiguous.tail {r : Root} {rs : List Root}
    (h : Contiguous (r :: rs)) : Contiguous rs := by
  intro j hj m hm i hi hij hbn
  have hstep := h (j + 1) (by simpa using Nat.succ_lt_succ hj)
    (m + 1) (Nat.succ_le_succ hm) (i + 1) (Nat.succ_le_succ hi)
  simpa [List.getElem?_cons_succ] using
    hstep (by simpa [List.getElem?_cons_succ] using hij)
      (by simpa [List.getElem?_cons_succ] using hbn)

theorem Contiguous.head_of_mem {b : Nat} {rs : List Root}
    (h : Contiguous (Root.branchNode b :: rs))
    (hmem : Root.branchNode b ∈ rs) : rs.head? = some (.branchNode b) := by
  obtain ⟨k, hk⟩ := List.mem_iff_getElem?.mp hmem
  have hklt : k < rs.length := by
    have := List.getElem?_eq_some.mp hk
    exact this.1
  have hstep := h (k + 1) (by simpa using Nat.succ_lt_succ hklt)
    1 (Nat.succ_le_succ (Nat.zero_le k)) 0 (Nat.zero_le 1)
  have h0 : (Root.branchNode b :: rs)[0]? = some (Root.branchNode b) := by simp
  have hj : (Root.branchNode b :: rs)[k + 1]? = some (Root.branchNode b) := by
    simpa [List.getElem?_cons_succ] using hk
  have h1 := hstep (by rw [h0, hj]) (by rw [h0]; rfl)
  rw [h0] at h1
  simpa [List.getElem?_cons_succ, ← List.head?_eq_getElem?] using h1

theorem pairsB_nonBN_beta_one :
    ∀ (roots : List Root), ∀ p ∈ pairsB roots, p.1.isBN = false → p.2 = 1 := by
  intro roots
  induction roots with
  | nil => intro p hp; simp [pairsB, computeBetas_nil] at hp
  | cons r rs ih =>
      intro p hp hbn
      rw [pairsB_cons] at hp
      rcases List.mem_cons.mp hp with hhead | htail
      · subst hhead
        simp only at hbn
        simp [hbn]
      · exact ih p htail hbn

theorem zerosFor_of_not_mem (roots : List Root) (i : Nat)
    (h : Root.branchNode i ∉ roots) : zerosFor roots i = 0 := by
  unfold zerosFor
  rw [List.length_eq_zero]
  rw [List.filter_eq_nil_iff]
  intro p hp
  have hmem : p.1 ∈ roots := (List.of_mem_zip hp).1
  have : ¬p.1 = Root.branchNode i := fun heq => h (heq ▸ hmem)
  simp [this]

theorem bnIds_cons_layer (n : Nat) (rs : List Root) :
    bnIds (Root.layer n :: rs) = bnIds rs := by
  simp [bnIds]

theorem bnIds_cons_bn (b : Nat) (rs : List Root) :
    bnIds (Root.branchNode b :: rs) = b :: bnIds rs := by
  simp [bnIds]

theorem contiguous_zerosFor :
    ∀ (roots : List Root), Contiguous roots →
      ∀ id ∈ bnIds roots, zerosFor roots id = 1 := by
  intro roots
  induction roots with
  | nil => intro _ id hid; simp [bnIds] at hid
  | cons r rs ih =>
      intro h id hid
      have htail : Contiguous rs := h.tail
      cases r with
      | layer n =>
          rw [bnIds_cons_layer] at hid
          have hz : zerosFor (Root.layer n :: rs) id = zerosFor rs id := by
            unfold zerosFor
            rw [pairsB_cons]
            simp [List.filter_cons]
          rw [hz]
          exact ih htail id hid
      | branchNode b =>
          rw [bnIds_cons_bn] at hid
          by_cases hh : rs.head? = some (Root.branchNode b)
          · -- the following branch shares this root: the head gets beta 1
            have hbeta :
                (if some (Root.branchNode b) = rs.head? ∨
                    (Root.branchNode b).isBN = false then (1 : ℚ) else 0) = 1 := by
              rw [hh]; simp
            have hz : zerosFor (Root.branchNode b :: rs) id = zerosFor rs id := by
              unfold zerosFor
              rw [pairsB_cons, List.filter_cons]
              rw [hbeta]
              norm_num
            rw [hz]
            rcases List.mem_cons.mp hid with hb | hmem
            · subst hb
              have hmem' : id ∈ bnIds rs := by
                cases rs with
                | nil => simp at hh
                | cons a as =>
                    have ha : Root.branchNode id = a := by simpa using hh.symm
                    rw [← ha, bnIds_cons_bn]
                    exact List.mem_cons_self id _
              exact ih htail id hmem'
            · exact ih htail id hmem
          · -- last branch of its block: the head gets beta 0
            have hbeta :
                (if some (Root.branchNode b) = rs.head? ∨
                    (Root.branchNode b).isBN = false then (1 : ℚ) else 0) = 0 := by
              have : ¬(some (Root.branchNode b) = rs.head?) := fun heq => hh heq.symm
              simp [this, Root.isBN]
            rcases List.mem_cons.mp hid with hb | hmem
            · subst hb
              have hnot : Root.branchNode id ∉ rs := by
                intro hmem
                exact hh (h.head_of_mem hmem)
              have hz0 : zerosFor rs id = 0 := zerosFor_of_not_mem rs id hnot
              unfold zerosFor
              rw [pairsB_cons, List.filter_cons]
              rw [hbeta]
              simp only [decide_True, decide_true_eq_true]
              unfold zerosFor at hz0
              simp [hz0]
            · have hne : Root.branchNode b ≠ Root.branchNode id := by
                intro heq
                have hid_eq : id = b := by
                  cases heq; rfl
                subst hid_eq
                have : Root.branchNode id ∈ rs := by
                  have := List.mem_filterMap.mp (by
                    simpa [bnIds] using hmem)
                  obtain ⟨a, ha, hfa⟩ := this
                  cases a with
                  | branchNode c =>
                      simp at hfa
                      subst hfa
                      exact ha
                  | layer c => simp at hfa
                exact hh (h.head_of_mem this)
              have hz : zerosFor (Root.branchNode b :: rs) id = zerosFor rs id := by
                unfold zerosFor
                rw [pairsB_cons, List.filter_cons]
                simp [hne]
              rw [hz]
              exact ih htail id hmem

/-- Claim C1 (counterexample): the claim quantifies over every Tree
constructed from a branch list, but for the constructible branch-root
sequence trunk, BranchNode#5, BranchNode#6, BranchNode#5 (two branches
sharing root instance 5 separated by a branch with root instance 6) the
constructor assigns beta 0.0 to BOTH branches rooted at instance 5
(betas are [1, 0, 0, 0]), so it is not the case that exactly one branch
per shared root gets beta 0.0. -/
theorem tree_beta_claim_counterexample :
    betaSpecOk [Root.layer 0, .branchNode 5, .branchNode 6, .branchNode 5] = false ∧
      computeBetas [Root.layer 0, .branchNode 5, .branchNode 6, .branchNode 5] =
        [1, 0, 0, 0] := by
  constructor <;> decide

/-- Claim C1 (amended): for every Tree whose branch list satisfies the
documented ordering precondition — branches rooted at the same
`BranchNode` instance are contiguous in the branch list — among the
branches whose first layer is the same `BranchNode` instance exactly one
is assigned beta 0.0 and every other branch sharing that root instance
is assigned beta 1.0, and every branch whose root is not a `BranchNode`
(in particular the trunk) is assigned beta 1.0. -/
theorem tree_beta_unique_initializer (roots : List Root) (h : Contiguous roots) :
    betaSpecOk roots = true := by
  unfold betaSpecOk
  rw [Bool.and_eq_true]
  constructor
  · rw [List.all_eq_true]
    intro id hid
    have := contiguous_zerosFor roots h id hid
    simpa using this
  · rw [List.all_eq_true]
    intro p hp
    rw [Bool.or_eq_true]
    by_cases hbn : p.1.isBN = true
    · exact Or.inl hbn
    · refine Or.inr ?_
      have := pairsB_nonBN_beta_one roots p hp (by simpa using hbn)
      simpa using this

/-- Witness for C1: a concrete contiguous branch list (trunk, two
branches at BranchNode#1, one branch at BranchNode#2) satisfies the
hypothesis and the invariant. -/
theorem tree_beta_unique_initializer_witness :
    Contiguous [Root.layer 0, .branchNode 1, .branchNode 1, .branchNode 2] ∧
      betaSpecOk [Root.layer 0, .branchNode 1, .branchNode 1, .branchNode 2] = true :=
  ⟨by decide, tree_beta_unique_initializer _ (by decide)⟩

/-! ## ResidualModule (source lines 197-263)

A tensor is modelled as a map from (flat) element index to a rational
value; the backend's elementwise arithmetic is exact on these values.
`ResidualModule` with no projection (`skip_layer is None`) owns one
output buffer into which its trunk Sequential writes (the trunk is
allocated with `shared_outputs = self.outputs`), and its `deltas` buffer
is a view of `delta_buffers[0]`, the same physical buffer that
`set_deltas` (lines 239-246) hands to the trunk's first layer
(`self.layers[0].layers[0].set_deltas(delta_buffers[0:1])`). -/

/-- Tensor contents, indexed by flat element position. -/
def Tensor : Type := Nat → ℚ

/-- Mutable buffers of a no-projection `ResidualModule`: the owned output
buffer, the gradient buffer view (aliasing `delta_buffers[0]`, which the
trunk's first layer also writes), and the cached forward input. -/
structure ResState where
  outputs : Tensor
  deltas : Tensor
  inputs : Tensor

/-- Modelled from the spec: the external leaf `Layer.bprop` write
semantics of `neon.layers.layer` (not under `src/`) — a layer writes its
computed gradient into its assigned deltas buffer scaled by `alpha`,
with `beta` selecting overwrite (0.0) versus accumulate (1.0):
`deltas = alpha * grad + beta * deltas`. -/
def layerWrite (alpha beta : ℚ) (grad buf : Tensor) : Tensor :=
  fun i => alpha * grad i + beta * buf i

/-- `ResidualModule.fprop` (lines 248-255) with `skip_layer is None`,
for a trunk whose forward function is `trunkF`:

    self.inputs = inputs
    self.layers[0].fprop(inputs, inference)   # writes into self.outputs
    self.outputs[:] = self.outputs + inputs
    return self.outputs
-/
def ResidualModule.fprop (trunkF : Tensor → Tensor) (st : ResState)
    (inputs : Tensor) : ResState × Tensor :=
  let st1 := { st with inputs := inputs }
  let st2 := { st1 with outputs := trunkF inputs }
  let st3 := { st2 with outputs := fun i => st2.outputs i + inputs i }
  (st3, st3.outputs)

/-- `ResidualModule.bprop` (lines 257-263) with `skip_layer is None`,
for a trunk whose end-to-end input-gradient function is `trunkG` (the
`alpha` passed down is applied once, at the trunk's first layer):

    self.deltas[:] = error
    self.layers[0].bprop(error, alpha=alpha, beta=1.0)  # first layer's
        # deltas buffer aliases self.deltas, so this accumulates
    return self.deltas

The `beta` parameter of `ResidualModule.bprop` is accepted but unused by
the source. -/
def ResidualModule.bprop (trunkG : Tensor → Tensor) (st : ResState)
    (error : Tensor) (alpha : ℚ) (_beta : ℚ) : ResState × Tensor :=
  let st1 := { st with deltas := error }
  let st2 := { st1 with deltas := layerWrite alpha 1 (trunkG error) st1.deltas }
  (st2, st2.deltas)

/-- Claim C4: for a `ResidualModule` constructed with no projection, for
every input tensor `x`, `fprop(x)` returns an output equal elementwise to
`trunk(x) + x`, where `trunk` is the module's single wrapped
`Sequential`. -/
theorem residual_fprop_adds_input (trunkF : Tensor → Tensor) (st : ResState)
    (x : Tensor) (i : Nat) :
    (ResidualModule.fprop trunkF st x).2 i = trunkF x i + x i := rfl

/-- Claim C3 (counterexample): the returned gradient buffer does NOT in
general equal the unmodified incoming error: with a trunk whose gradient
at error 0 is the all-ones tensor and incoming error 0, the returned
buffer holds 1 at index 0, not the error value 0 — the trunk's beta=1
backward pass has accumulated its own gradient into the shared buffer on
top of the skip-path copy. -/
theorem residual_bprop_claim_counterexample :
    (ResidualModule.bprop (fun _ => fun _ => 1)
        ⟨fun _ => 0, fun _ => 0, fun _ => 0⟩ (fun _ => 0) 1 0).2 0 ≠
      (fun _ : Nat => (0 : ℚ)) 0 := by
  simp [ResidualModule.bprop, layerWrite]

/-- Claim C3 (amended): for a `ResidualModule` constructed with no
projection, for every error tensor, `bprop(error)` first writes the
unmodified incoming error into the returned deltas buffer (the skip-path
contribution, overwrite semantics), and the trunk then consumes the same
error with forced accumulation beta=1 into that same shared buffer, so
the returned buffer's contents equal `error + alpha * trunk-gradient`
elementwise. -/
theorem residual_bprop_skip_plus_trunk (trunkG : Tensor → Tensor)
    (st : ResState) (error : Tensor) (alpha beta : ℚ) (i : Nat) :
    (ResidualModule.bprop trunkG st error alpha beta).2 i =
      error i + alpha * trunkG error i := by
  simp [ResidualModule.bprop, layerWrite]
  ring

/-! ## Tree forward propagation (source lines 333-339)

    def fprop(self, inputs, inference=False):
        x = self.layers[0].fprop(inputs, inference)
        if inference:
            return x
        else:
            out = [x] + [l.fprop(None) for l in self.layers[1:]]
            return out

A branch is modelled by its forward function, taking the explicit input
passed to `Sequential.fprop` (`None` for auxiliary branches, which pull
from their BranchNode's cached activation instead). Besides the result —
a single tensor or a list of tensors — the model records the evaluation
log: one entry per branch actually evaluated, in evaluation order,
holding the explicit input that branch received. -/

/-- `Tree.fprop`. Returns `none` when the branch list is empty (the
source would fail indexing `self.layers[0]`). -/
def Tree.fprop (branches : List (Option Tensor → Tensor)) (inputs : Tensor)
    (inference : Bool) : Option ((Tensor ⊕ List Tensor) × List (Option Tensor)) :=
  match branches.head? with
  | none => none
  | some b0 =>
      let x := b0 (some inputs)
      if inference then some (Sum.inl x, [some inputs])
      else some (Sum.inr (x :: (branches.drop 1).map fun f => f none),
                 some inputs :: (branches.drop 1).map fun _ => none)

/-- Claim C5: for every Tree (nonempty branch list with trunk `b0`),
`fprop(input, inference=True)` returns only the trunk branch's output —
a single tensor, with the trunk the only branch evaluated — while
`fprop(input, inference=False)` returns an ordered list of one output
per branch in branch order (trunk first, with the real input; every
auxiliary branch evaluated with no explicit input). -/
theorem tree_fprop_inference_trunk_only
    (branches : List (Option Tensor → Tensor)) (b0 : Option Tensor → Tensor)
    (h : branches.head? = some b0) (inputs : Tensor) :
    Tree.fprop branches inputs true = some (Sum.inl (b0 (some inputs)), [some inputs]) ∧
    ∃ outs, Tree.fprop branches inputs false =
        some (Sum.inr outs, some inputs :: (branches.drop 1).map fun _ => none) ∧
      outs.length = branches.length ∧
      outs = b0 (some inputs) :: (branches.drop 1).map fun f => f none := by
  cases branches with
  | nil => simp at h
  | cons f fs =>
      have hb : f = b0 := by simpa using h
      subst hb
      constructor
      · rfl
      · exact ⟨_, rfl, by simp, rfl⟩

/-- Concrete trunk branch for the C5 witness: constant output 1. -/
def trunkW : Option Tensor → Tensor := fun _ => fun _ => 1

/-- Concrete auxiliary branch for the C5 witness: constant output 2. -/
def auxW : Option Tensor → Tensor := fun _ => fun _ => 2

/-- Concrete two-branch Tree for the C5 witness. -/
def branchesW : List (Option Tensor → Tensor) := [trunkW, auxW]

/-- Witness for C5: a Tree with a constant trunk and one auxiliary
branch. -/
theorem tree_fprop_inference_trunk_only_witness :
    branchesW.head? = some trunkW ∧
    (Tree.fprop branchesW (fun _ => 0) true =
        some (Sum.inl (trunkW (some fun _ => 0)), [some fun _ => 0]) ∧
      ∃ outs, Tree.fprop branchesW (fun _ => 0) false =
          some (Sum.inr outs, some (fun _ => 0) :: (branchesW.drop 1).map fun _ => none) ∧
        outs.length = branchesW.length ∧
        outs = trunkW (some fun _ => 0) :: (branchesW.drop 1).map fun f => f none) :=
  ⟨rfl, tree_fprop_inference_trunk_only branchesW trunkW rfl (fun _ => 0)⟩

/-! ## MergeBroadcast merge configuration and partitioning
(source lines 398-406 and 448-468)

Shapes are modelled as lists of dimension sizes (a Python int shape is a
singleton list, whose product is itself). Buffers produced by
`be.iobuf(shape)` are two-dimensional, `(prod(shape), bsz)`; we model
such a buffer as its list of rows. -/

/-- `np.prod` of a shape tuple. -/
def prodL (l : List Nat) : Nat := l.foldl (· * ·) 1

/-- `np.cumsum` of the per-branch concatenation dimensions. -/
def cumsum (l : List Nat) : List Nat := (l.scanl (· + ·) 0).tail

/-- Merge modes accepted by `MergeBroadcast.__init__` (line 388). -/
inductive MergeMode where
  | recurrent
  | depth
  | stack
deriving DecidableEq, Repr

/-- Slice start/end index pairs from the per-branch concatenation dims:
`end_idx = [idx * stride_size for idx in np.cumsum(catdims)]`,
`start_idx = [0] + end_idx[:-1]`,
`slices = [slice(s, e) for s, e in zip(start_idx, end_idx)]`. -/
def mkSlices (catdims : List Nat) (stride : Nat) : List (Nat × Nat) :=
  let endIdx := (cumsum catdims).map (· * stride)
  let startIdx := 0 :: endIdx.dropLast
  startIdx.zip endIdx

/-- `MergeBroadcast._configure_merge` (lines 448-468): computes
`out_shape`, `stride_size` and `slices` from the sub-path output shapes.
Returns `none` where the source would fail indexing (`xs[1]`,
`in_shapes[0]`) on malformed shape lists. -/
def configure_merge (merge : MergeMode) (bsz : Nat) (in_shapes : List (List Nat)) :
    Option (List Nat × Nat × List (Nat × Nat)) :=
  match merge with
  | .recurrent => do
      let catdims ← in_shapes.mapM fun xs => xs[1]?
      let first ← in_shapes.head?
      let d0 ← first.head?
      some ([d0, catdims.sum], bsz, mkSlices catdims bsz)
  | .depth => do
      let catdims ← in_shapes.mapM fun xs => xs.head?
      let first ← in_shapes.head?
      let stride := prodL first.tail
      some (catdims.sum :: first.tail, stride, mkSlices catdims stride)
  | .stack =>
      let catdims := in_shapes.map prodL
      some ([catdims.sum], 1, mkSlices catdims 1)

/-- `MergeBroadcast.get_partitions` (lines 398-406): given a buffer `x`
(list of rows, each row one flat-feature position across the batch) and
the slice list, slice along the trailing axis when `x.shape[-1]` differs
from the backend batch size (`x[:, sl]`, the sequential case), else
along the leading axis (`x[sl]`). -/
def get_partitions {α : Type} (bsz : Nat) (x : List (List α))
    (slices : List (Nat × Nat)) : List (List (List α)) :=
  if (x.head?.getD []).length ≠ bsz then
    slices.map fun s => x.map fun row => (row.drop s.1).take (s.2 - s.1)
  else
    slices.map fun s => (x.drop s.1).take (s.2 - s.1)

/-- Claim C2: a `MergeBroadcast` with `merge="depth"` and two sub-paths of
output shape (4, 8, 8) gets `out_shape = (8, 8, 8)` with stride 64 (the
product of the trailing dims) and slice offsets (0, 256) and (256, 512)
(prefix sums of each branch's leading-dimension size times the stride);
`get_partitions` on the concatenated 512-row output buffer (whose
trailing axis is the batch axis) returns two views covering the first
and second contiguous halves along the leading axis, which together
cover the whole buffer. -/
theorem merge_depth_partitions (bsz : Nat) (x : List (List ℚ))
    (hlen : x.length = 512) (hbsz : (x.head?.getD []).length = bsz) :
    configure_merge .depth bsz [[4, 8, 8], [4, 8, 8]] =
      some ([8, 8, 8], 64, [(0, 256), (256, 512)]) ∧
    get_partitions bsz x [(0, 256), (256, 512)] =
      [x.take 256, (x.drop 256).take 256] ∧
    x.take 256 ++ (x.drop 256).take 256 = x := by
  refine ⟨rfl, ?_, ?_⟩
  · unfold get_partitions
    rw [if_neg (by simp [hbsz])]
    simp
  · have hd : ((x.drop 256).take 256) = x.drop 256 := by
      apply List.take_of_length_le
      simp [hlen]
    rw [hd, List.take_append_drop]

set_option maxRecDepth 4000 in
/-- Witness for C2: the concrete 512x1 buffer of zeros with batch size 1. -/
theorem merge_depth_partitions_witness :
    ((List.replicate 512 [(0 : ℚ)]).length = 512 ∧
      (((List.replicate 512 [(0 : ℚ)]).head?.getD []).length = 1)) ∧
    (configure_merge .depth 1 [[4, 8, 8], [4, 8, 8]] =
        some ([8, 8, 8], 64, [(0, 256), (256, 512)]) ∧
      get_partitions 1 (List.replicate 512 [(0 : ℚ)]) [(0, 256), (256, 512)] =
        [(List.replicate 512 [(0 : ℚ)]).take 256,
         ((List.replicate 512 [(0 : ℚ)]).drop 256).take 256] ∧
      (List.replicate 512 [(0 : ℚ)]).take 256 ++
          ((List.replicate 512 [(0 : ℚ)]).drop 256).take 256 =
        List.replicate 512 [(0 : ℚ)]) :=
  ⟨⟨by decide, by decide⟩,
    merge_depth_partitions 1 (List.replicate 512 [(0 : ℚ)]) (by decide) (by decide)⟩

/-! ## Sequential delta-pool allocation (source lines 139-156)

    def allocate_deltas(self, global_deltas=None):
        def needs_extra_delta(ll):
            return True if type(ll) in (MergeBroadcast, ResidualModule) else False
        if not global_deltas:
            ndelta_bufs = 4 if any([needs_extra_delta(l) for l in self.layers]) else 2
            in_sizes = [np.prod(l.in_shape) for l in self.layers[1:]]
            if in_sizes:
                self.global_deltas = [self.be.iobuf(
                    max(in_sizes), parallelism="Data") for _ in range(ndelta_bufs)]
            else:
                self.global_deltas = None
        ...

A child of the Sequential is modelled by its runtime type together with
its input volume (`np.prod(l.in_shape)`); container children carry their
own nested children so that "the topology contains" is expressible. -/

/-- A direct child of a `Sequential`, by runtime type: a plain layer, or
a nested `Sequential`/`MergeBroadcast`/`ResidualModule` container with
its own children. `inSize` is the child's input volume. -/
inductive Child where
  | plain (inSize : Nat)
  | seqC (inSize : Nat) (children : List Child)
  | mergeBroadcast (inSize : Nat) (children : List Child)
  | residual (inSize : Nat) (children : List Child)

/-- `np.prod(l.in_shape)` of a child. -/
def Child.inSize : Child → Nat
  | .plain n => n
  | .seqC n _ => n
  | .mergeBroadcast n _ => n
  | .residual n _ => n

/-- `needs_extra_delta(ll)`: true iff the child's runtime type is
`MergeBroadcast` or `ResidualModule`. -/
def needs_extra_delta : Child → Bool
  | .mergeBroadcast _ _ => true
  | .residual _ _ => true
  | _ => false

mutual

/-- Whether the topology rooted at a child contains (at any depth) a
`MergeBroadcast` or `ResidualModule`. -/
def containsExtra : Child → Bool
  | .plain _ => false
  | .seqC _ cs => containsExtraL cs
  | .mergeBroadcast _ _ => true
  | .residual _ _ => true

/-- Whether any member of a child list contains a `MergeBroadcast` or
`ResidualModule`. -/
def containsExtraL : List Child → Bool
  | [] => false
  | c :: cs => containsExtra c || containsExtraL cs

end

/-- `Sequential.allocate_deltas` with `global_deltas=None`: returns the
allocated pool as (number of buffers, per-buffer size), or `none` when
`in_sizes` is empty and `self.global_deltas` is set to `None`. -/
def Sequential.allocate_deltas (layers : List Child) : Option (Nat × Nat) :=
  let ndelta_bufs := if layers.any needs_extra_delta then 4 else 2
  let in_sizes := (layers.drop 1).map Child.inSize
  match in_sizes with
  | [] => none
  | s :: ss => some (ndelta_bufs, ss.foldl max s)

/-- Whether `sz` is the maximum of the list `l` (a member and an upper
bound). -/
def isMaxOf (sz : Nat) (l : List Nat) : Bool :=
  l.contains sz && l.all (· ≤ sz)

/-- Claim C7's per-Sequential property, as stated: `allocate_deltas` with
no caller-supplied pool allocates a pool of exactly 4 buffers when the
topology contains a `MergeBroadcast` or `ResidualModule` and exactly 2
buffers otherwise, each buffer sized to the maximum input volume among
the non-root children. -/
def deltaPoolSpecOk (layers : List Child) : Bool :=
  match Sequential.allocate_deltas layers with
  | none => false
  | some (n, sz) =>
      (n == if containsExtraL layers then 4 else 2) &&
      isMaxOf sz ((layers.drop 1).map Child.inSize)

theorem foldl_max_mem (s : Nat) (ss : List Nat) : ss.foldl max s ∈ s :: ss := by
  induction ss generalizing s with
  | nil => simp [List.foldl]
  | cons a ss ih =>
      rcases List.mem_cons.mp (ih (max s a)) with h | h
      · rw [List.foldl_cons, h]
        rcases max_choice s a with hm | hm <;> simp [hm]
      · simp [List.foldl_cons, h]

theorem le_foldl_max (s : Nat) (ss : List Nat) :
    ∀ x ∈ s :: ss, x ≤ ss.foldl max s := by
  induction ss generalizing s with
  | nil => intro x hx; simp at hx; simp [List.foldl, hx]
  | cons a ss ih =>
      intro x hx
      rw [List.foldl_cons]
      rcases List.mem_cons.mp hx with h | h
      · subst h
        exact le_trans (le_max_left x a) (ih (max x a) _ (List.mem_cons_self _ _))
      · rcases List.mem_cons.mp h with h2 | h2
        · subst h2
          exact le_trans (le_max_right s x) (ih (max s x) _ (List.mem_cons_self _ _))
        · exact ih (max s a) x (List.mem_cons_of_mem _ h2)

/-- Claim C7 (counterexample): the claim fails in two ways. A Sequential
whose direct children are a plain layer and a nested Sequential holding a
`ResidualModule` has a topology containing a `ResidualModule`, yet
`needs_extra_delta` inspects only the direct children's runtime types, so
only 2 buffers are allocated (the pool is `(2, 5)`, not 4 buffers). And a
Sequential with a single child has no non-root children, so no pool is
allocated at all (`global_deltas = None`) rather than a 2-buffer pool. -/
theorem delta_pool_claim_counterexample :
    deltaPoolSpecOk [Child.plain 3, Child.seqC 5 [Child.residual 2 []]] = false ∧
      Sequential.allocate_deltas [Child.plain 3, Child.seqC 5 [Child.residual 2 []]] =
        some (2, 5) ∧
      containsExtraL [Child.plain 3, Child.seqC 5 [Child.residual 2 []]] = true ∧
      deltaPoolSpecOk [Child.plain 3] = false ∧
      Sequential.allocate_deltas [Child.plain 3] = none := by
  refine ⟨by decide, by decide, by decide, by decide, by decide⟩

/-- Claim C7 (amended): for every Sequential with at least one non-root
child, `allocate_deltas` with no caller-supplied pool allocates a pool
of exactly 4 buffers when some DIRECT child is a `MergeBroadcast` or
`ResidualModule` and exactly 2 buffers otherwise, each buffer sized to
the maximum input volume among the non-root children; with no non-root
child, no pool is allocated. -/
theorem delta_pool_size_and_max (layers : List Child)
    (h : layers.drop 1 ≠ []) :
    ∃ sz, Sequential.allocate_deltas layers =
        some ((if layers.any needs_extra_delta then 4 else 2), sz) ∧
      sz ∈ (layers.drop 1).map Child.inSize ∧
      ∀ x ∈ (layers.drop 1).map Child.inSize, x ≤ sz := by
  unfold Sequential.allocate_deltas
  cases hsz : (layers.drop 1).map Child.inSize with
  | nil =>
      exact absurd (List.map_eq_nil_iff.mp hsz) h
  | cons s ss =>
      exact ⟨ss.foldl max s, rfl, foldl_max_mem s ss, le_foldl_max s ss⟩

/-- Witness for C7: a Sequential with a direct `ResidualModule` child and
two non-root children of input volumes 7 and 5 gets a 4-buffer pool of
size 7. -/
theorem delta_pool_size_and_max_witness :
    ([Child.plain 3, Child.residual 7 [], Child.plain 5].drop 1 ≠ []) ∧
      (∃ sz, Sequential.allocate_deltas [Child.plain 3, Child.residual 7 [], Child.plain 5] =
          some ((if [Child.plain 3, Child.residual 7 [], Child.plain 5].any
            needs_extra_delta then 4 else 2), sz) ∧
        sz ∈ ([Child.plain 3, Child.residual 7 [], Child.plain 5].drop 1).map Child.inSize ∧
        ∀ x ∈ ([Child.plain 3, Child.residual 7 [], Child.plain 5].drop 1).map Child.inSize,
          x ≤ sz) :=
  ⟨by simp, delta_pool_size_and_max _ (by simp)⟩

/-! ## Multicost cost aggregation (source lines 585-606)

    def get_cost(self, inputs, targets):
        if not isinstance(inputs, list):
            return self.costs[0].get_cost(inputs, targets)
        else:
            ltargets = targets if type(targets) in (tuple, list) else \
                [targets for c in self.costs]
            costvals = [c.get_cost(i, t) for c, i, t in zip(self.costs, inputs, ltargets)]
            sum_optree = reduce(add, [w * c for w, c in zip(self.weights, costvals)])
            costvals[0][:] = sum_optree
            return costvals[0]

An external cost object is modelled by its scalar cost function (taking
the prediction tensor and the raw targets argument, which may be a
single tensor or a list) together with the identity of the buffer its
`get_cost` returns, into which the weighted sum is written in place. -/

/-- Either a single tensor or a list of tensors (the raw `inputs` /
`targets` argument shapes that `Multicost.get_cost` distinguishes). -/
def TOrL : Type := Tensor ⊕ List Tensor

/-- An external cost branch: its scalar cost function and the identity
of its output buffer. -/
structure Cost where
  f : Tensor → TOrL → ℚ
  bufId : Nat

/-- Three-way `zip` used by `zip(self.costs, inputs, ltargets)`. -/
def zip3With {α β γ δ : Type} (f : α → β → γ → δ) :
    List α → List β → List γ → List δ
  | a :: as, b :: bs, c :: cs => f a b c :: zip3With f as bs cs
  | _, _, _ => []

/-- `Multicost.get_cost`: returns the identity of the buffer holding the
result and the value written there, or `none` where the source would
fail (no costs, or an empty weighted list passed to `reduce`). -/
def Multicost.get_cost (costs : List Cost) (weights : List ℚ)
    (inputs targets : TOrL) : Option (Nat × ℚ) :=
  match inputs with
  | .inl x =>
      match costs with
      | [] => none
      | c0 :: _ => some (c0.bufId, c0.f x targets)
  | .inr xs =>
      let ltargets : List Tensor :=
        match targets with
        | .inr ts => ts
        | .inl t => costs.map fun _ => t
      let costvals := zip3With (fun c i t => c.f i (Sum.inl t)) costs xs ltargets
      match costs, costvals with
      | c0 :: _, _ :: _ =>
          match List.zipWith (fun w v => w * v) weights costvals with
          | [] => none
          | t0 :: ts => some (c0.bufId, ts.foldl (· + ·) t0)
      | _, _ => none

/-- Claim C8: (a) for a single non-list input, `get_cost` delegates
entirely to the first cost (returning its buffer and its value on the
raw targets argument); (b) with two costs weighted [1.0, 0.5], a list of
two predictions and a single shared target, the returned value equals
`cost0(pred0, target) + 0.5 * cost1(pred1, target)` and lives in the
first cost's buffer. -/
theorem multicost_get_cost_weighted_sum :
    (∀ (c0 : Cost) (cs : List Cost) (w : List ℚ) (x : Tensor) (tg : TOrL),
      Multicost.get_cost (c0 :: cs) w (Sum.inl x) tg = some (c0.bufId, c0.f x tg)) ∧
    (∀ (c0 c1 : Cost) (p0 p1 t : Tensor),
      Multicost.get_cost [c0, c1] [1, 1/2] (Sum.inr [p0, p1]) (Sum.inl t) =
        some (c0.bufId, c0.f p0 (Sum.inl t) + 1/2 * c1.f p1 (Sum.inl t))) := by
  constructor
  · intro c0 cs w x tg
    rfl
  · intro c0 c1 p0 p1 t
    show some (c0.bufId, _) = _
    norm_num [Multicost.get_cost, zip3With]

/-! ## Structural description and reconstruction
(source lines 53-87: `LayerContainer.gen_class`, `get_description`)

`get_description` emits a descriptor `{type, config: {layers: [...]}}`
with one child descriptor per child in order; `gen_class` resolves each
child's concrete type from the descriptor's `type` field (module-level
container lookup or `neon.layers.layer` lookup) and rebuilds the
children in order before applying the container's constructor. -/

/-- Concrete container types of this module, resolvable by name from a
descriptor's `type` field. -/
inductive CKind where
  | sequential
  | tree
  | mergeBroadcast
  | mergeMultistream
  | residual
deriving DecidableEq, Repr

/-- A live container tree: an atomic layer (with its layer type tag) or
a container of some concrete type with an ordered child list. -/
inductive CTree where
  | leaf (typ : Nat)
  | cont (kind : CKind) (children : List CTree)

/-- A descriptor: the `type` field (a resolvable container kind or an
atomic layer type name) and the ordered `config['layers']` child
descriptors. -/
inductive Desc where
  | mk (typ : CKind ⊕ Nat) (children : List Desc)

mutual

/-- `LayerContainer.get_description`: the container's own type plus each
child's description, in child order; an atomic layer describes itself by
its type name. -/
def get_description : CTree → Desc
  | .leaf t => .mk (Sum.inr t) []
  | .cont k cs => .mk (Sum.inl k) (get_descriptionL cs)

/-- Description of a child list, in order. -/
def get_descriptionL : List CTree → List Desc
  | [] => []
  | c :: cs => get_description c :: get_descriptionL cs

end

mutual

/-- `LayerContainer.gen_class`: resolve the descriptor's type and rebuild
the children in order, then construct the container from them. The
reconstruction of an atomic child is modelled from the spec ("resolving
each child's concrete type by name", via `neon.layers.layer`, not under
`src/`): it yields an atomic layer of the same type. -/
def gen_class : Desc → Option CTree
  | .mk (Sum.inr t) _ => some (.leaf t)
  | .mk (Sum.inl k) ds =>
      match gen_classL ds with
      | some cs => some (.cont k cs)
      | none => none

/-- Reconstruction of a descriptor child list, in order; fails if any
child fails to reconstruct. -/
def gen_classL : List Desc → Option (List CTree)
  | [] => some []
  | d :: ds =>
      match gen_class d, gen_classL ds with
      | some c, some cs => some (c :: cs)
      | _, _ => none

end

mutual

theorem gen_class_get_description :
    ∀ t : CTree, gen_class (get_description t) = some t
  | .leaf t => rfl
  | .cont k cs => by
      simp only [get_description, gen_class, gen_classL_get_descriptionL cs]

theorem gen_classL_get_descriptionL :
    ∀ cs : List CTree, gen_classL (get_descriptionL cs) = some cs
  | [] => rfl
  | c :: cs => by
      simp only [get_descriptionL, gen_classL, gen_class_get_description c,
        gen_classL_get_descriptionL cs]

end

/-- An element of the `layers` argument of `Tree.__init__` /
`MergeBroadcast.__init__`: an existing `Sequential`, a plain list of
layers, a single `Layer`, or any other (incompatible) object. -/
inductive TreeElem where
  | seqE (ls : List Nat)
  | listE (ls : List Nat)
  | layerE (l : Nat)
  | other (junk : Nat)
deriving DecidableEq, Repr

/-- `Sequential.__init__` as invoked by the normalization loop on a
plain list (source lines 103-110): `root = self._layers[0]` raises an
IndexError when the list is empty; otherwise the constructed Sequential
stores the list. -/
def Sequential.ofList (l : List Nat) : Except String (List Nat) :=
  match l with
  | [] => .error "IndexError: list index out of range"
  | _ => .ok l

/-- `Tree.__init__`'s branch-normalization loop (lines 284-293), in an
exception monad: each compatible element appends a branch (a list
element is passed through `Sequential(l)`, which can raise); the
incompatible case evaluates `ValueError(...)` as a bare expression
statement — the value is bound and dropped, no exception is raised. -/
def Tree.initLayers : List TreeElem → Except String (List (List Nat))
  | [] => .ok []
  | e :: es =>
      match e with
      | .seqE s => (Tree.initLayers es).map fun ls => s :: ls
      | .listE l => do
          let b ← Sequential.ofList l
          let ls ← Tree.initLayers es
          .ok (b :: ls)
      | .layerE l => (Tree.initLayers es).map fun ls => [l] :: ls
      | .other _ =>
          let _discarded := "Incompatible element for Tree container"
          Tree.initLayers es

/-- `MergeBroadcast.__init__`'s identical normalization loop (lines
373-382), with its own error message, likewise never raised. -/
def MergeBroadcast.initLayers : List TreeElem → Except String (List (List Nat))
  | [] => .ok []
  | e :: es =>
      match e with
      | .seqE s => (MergeBroadcast.initLayers es).map fun ls => s :: ls
      | .listE l => do
          let b ← Sequential.ofList l
          let ls ← MergeBroadcast.initLayers es
          .ok (b :: ls)
      | .layerE l => (MergeBroadcast.initLayers es).map fun ls => [l] :: ls
      | .other _ =>
          let _discarded := "Incompatible element for MergeBroadcast Layer"
          MergeBroadcast.initLayers es

/-- The beta scan of `Tree.__init__` (lines 301-308) over the reversed
normalized branches: each step reads `root = l.layers[0]`, an IndexError
on an empty branch; over opaque non-`BranchNode` roots the condition
`root is next_root or type(root) is not BranchNode` is always true, so
each emitted beta is 1.0 (no `next_root` threading is needed). -/
def treeBetasLoop : List (List Nat) → Except String (List ℚ)
  | [] => .ok []
  | b :: bs =>
      match b.head? with
      | none => .error "IndexError: list index out of range"
      | some _ => (treeBetasLoop bs).map fun rest => (1 : ℚ) :: rest

/-- `Tree.__init__` (lines 282-308): the normalization loop followed by
the beta scan (run over `reversed(self.layers)`, results reversed).
Returns the branch list and betas, or the raised exception. -/
def Tree.init (elems : List TreeElem) : Except String (List (List Nat) × List ℚ) := do
  let layers ← Tree.initLayers elems
  let betas ← (treeBetasLoop layers.reverse).map List.reverse
  .ok (layers, betas)

/-- `MergeBroadcast.__init__` (lines 363-391): the normalization loop
followed by `self.betas = [1.0 for _ in self.layers]` and
`self.betas[-1] = 0.0` (line 384), which raises an IndexError when the
branch list is empty. The `merge` mode assert (line 388) is outside this
model (a well-formed mode is assumed). -/
def MergeBroadcast.init (elems : List TreeElem) :
    Except String (List (List Nat) × List ℚ) := do
  let layers ← MergeBroadcast.initLayers elems
  let betas := layers.map fun _ => (1 : ℚ)
  match betas with
  | [] => .error "IndexError: list assignment index out of range"
  | _ => .ok (layers, betas.dropLast ++ [0])

/-- The branch a compatible element normalizes to (`none` for an
incompatible element). -/
def elemToSeq : TreeElem → Option (List Nat)
  | .seqE s => some s
  | .listE l => some l
  | .layerE l => some [l]
  | .other _ => none

/-- Whether an element, if compatible, yields a well-formed (nonempty)
branch Sequential. -/
def TreeElem.validBranch : TreeElem → Bool
  | .seqE s => !s.isEmpty
  | .listE l => !l.isEmpty
  | .layerE _ => true
  | .other _ => true

theorem initLayers_eq_filterMap (elems : List TreeElem)
    (hvalid : ∀ e ∈ elems, e.validBranch = true) :
    Tree.initLayers elems = Except.ok (elems.filterMap elemToSeq) ∧
    MergeBroadcast.initLayers elems = Except.ok (elems.filterMap elemToSeq) := by
  induction elems with
  | nil => exact ⟨rfl, rfl⟩
  | cons e es ih =>
      have hes : ∀ e ∈ es, e.validBranch = true :=
        fun x hx => hvalid x (List.mem_cons_of_mem _ hx)
      have ihs := ih hes
      cases e with
      | seqE s => simp [Tree.initLayers, MergeBroadcast.initLayers, elemToSeq, ihs.1, ihs.2,
          Except.map, List.filterMap_cons]
      | listE l =>
          have hl : l ≠ [] := by
            have := hvalid _ (List.mem_cons_self _ _)
            simpa [TreeElem.validBranch, List.isEmpty_iff] using this
          have hofl : Sequential.ofList l = Except.ok l := by
            cases l with
            | nil => exact absurd rfl hl
            | cons a as => rfl
          simp [Tree.initLayers, MergeBroadcast.initLayers, elemToSeq, ihs.1, ihs.2,
            hofl, List.filterMap_cons]
          all_goals rfl
      | layerE l => simp [Tree.initLayers, MergeBroadcast.initLayers, elemToSeq, ihs.1, ihs.2,
          Except.map, List.filterMap_cons]
      | other j => simp [Tree.initLayers, MergeBroadcast.initLayers, elemToSeq, ihs.1, ihs.2,
          List.filterMap_cons]

theorem treeBetasLoop_all_ones (ls : List (List Nat))
    (h : ∀ b ∈ ls, b ≠ []) :
    treeBetasLoop ls = Except.ok (ls.map fun _ => (1 : ℚ)) := by
  induction ls with
  | nil => rfl
  | cons b bs ih =>
      have hb : b ≠ [] := h b (List.mem_cons_self _ _)
      have hbs := ih fun x hx => h x (List.mem_cons_of_mem _ hx)
      cases b with
      | nil => exact absurd rfl hb
      | cons a as => simp [treeBetasLoop, hbs, Except.map]

theorem filterMap_elemToSeq_nonempty (elems : List TreeElem)
    (hvalid : ∀ e ∈ elems, e.validBranch = true) :
    ∀ b ∈ elems.filterMap elemToSeq, b ≠ [] := by
  intro b hb
  obtain ⟨e, he, hfe⟩ := List.mem_filterMap.mp hb
  have hv := hvalid e he
  cases e with
  | seqE s =>
      have : s = b := by simpa [elemToSeq] using hfe
      subst this
      simpa [TreeElem.validBranch, List.isEmpty_iff] using hv
  | listE l =>
      have : l = b := by simpa [elemToSeq] using hfe
      subst this
      simpa [TreeElem.validBranch, List.isEmpty_iff] using hv
  | layerE l =>
      have : [l] = b := by simpa [elemToSeq] using hfe
      subst this
      simp
  | other j => simp [elemToSeq] at hfe

/-- Claim C10 (counterexample): the claim asserts that construction
completes without raising for EVERY Tree or MergeBroadcast given an
incompatible element, but `MergeBroadcast([junk], merge=...)` skips its
only element, leaving the branch list empty, and line 384
`self.betas[-1] = 0.0` then raises an IndexError: construction fails.
(The normalization loop itself still raises nothing.) -/
theorem mergebroadcast_all_incompatible_counterexample :
    MergeBroadcast.init [TreeElem.other 9] =
        Except.error "IndexError: list assignment index out of range" ∧
      MergeBroadcast.initLayers [TreeElem.other 9] = Except.ok [] := by
  exact ⟨rfl, rfl⟩

/-- Claim C10 (amended): for every element list whose compatible
elements form well-formed branches and which contains an element that is
neither a `Sequential`, a list, nor a `Layer`: `Tree` construction
completes without raising any exception (the `ValueError` is constructed
but never raised) and every incompatible element is silently omitted,
the branch list being exactly the normalized compatible elements in
order (each branch getting beta 1.0 here, no roots being BranchNodes);
`MergeBroadcast` construction does the same provided at least one
element is compatible, but when every element is incompatible the empty
branch list makes the beta initialization `self.betas[-1] = 0.0` raise
an IndexError, so construction fails. -/
theorem incompatible_element_skipped_unless_empty (elems : List TreeElem)
    (hincomp : ∃ j, TreeElem.other j ∈ elems)
    (hvalid : ∀ e ∈ elems, e.validBranch = true) :
    Tree.init elems = Except.ok (elems.filterMap elemToSeq,
        (elems.filterMap elemToSeq).map fun _ => (1 : ℚ)) ∧
    (elems.filterMap elemToSeq ≠ [] →
      MergeBroadcast.init elems = Except.ok (elems.filterMap elemToSeq,
        ((elems.filterMap elemToSeq).map fun _ => (1 : ℚ)).dropLast ++ [0])) ∧
    (elems.filterMap elemToSeq = [] →
      MergeBroadcast.init elems =
        Except.error "IndexError: list assignment index out of range") := by
  clear hincomp
  have hloops := initLayers_eq_filterMap elems hvalid
  have hne : ∀ b ∈ (elems.filterMap elemToSeq).reverse, b ≠ [] := by
    intro b hb
    exact filterMap_elemToSeq_nonempty elems hvalid b (List.mem_reverse.mp hb)
  have hbetas : treeBetasLoop (elems.filterMap elemToSeq).reverse =
      Except.ok ((elems.filterMap elemToSeq).reverse.map fun _ => (1 : ℚ)) :=
    treeBetasLoop_all_ones _ hne
  refine ⟨?_, ?_, ?_⟩
  · unfold Tree.init
    rw [hloops.1]
    show (treeBetasLoop (elems.filterMap elemToSeq).reverse).map List.reverse >>= _ = _
    rw [hbetas]
    simp [Except.map, List.map_reverse]
    all_goals rfl
  · intro hne2
    unfold MergeBroadcast.init
    rw [hloops.2]
    cases hm : elems.filterMap elemToSeq with
    | nil => exact absurd hm hne2
    | cons b bs => rfl
  · intro heq
    unfold MergeBroadcast.init
    rw [hloops.2, heq]
    rfl

/-- Witness for C10: a three-element input whose middle element is
incompatible; Tree construction and MergeBroadcast construction both
succeed with the two normalized branches (betas all 1.0, respectively
[1.0, 0.0]), the nonempty case applying. -/
theorem incompatible_element_skipped_unless_empty_witness :
    ((∃ j, TreeElem.other j ∈ [TreeElem.seqE [1, 2], TreeElem.other 9, TreeElem.layerE 3]) ∧
      (∀ e ∈ [TreeElem.seqE [1, 2], TreeElem.other 9, TreeElem.layerE 3],
        e.validBranch = true)) ∧
    (Tree.init [TreeElem.seqE [1, 2], TreeElem.other 9, TreeElem.layerE 3] =
        Except.ok ([TreeElem.seqE [1, 2], TreeElem.other 9,
            TreeElem.layerE 3].filterMap elemToSeq,
          ([TreeElem.seqE [1, 2], TreeElem.other 9,
            TreeElem.layerE 3].filterMap elemToSeq).map fun _ => (1 : ℚ)) ∧
      ([TreeElem.seqE [1, 2], TreeElem.other 9, TreeElem.layerE 3].filterMap elemToSeq ≠ [] →
        MergeBroadcast.init [TreeElem.seqE [1, 2], TreeElem.other 9, TreeElem.layerE 3] =
          Except.ok ([TreeElem.seqE [1, 2], TreeElem.other 9,
              TreeElem.layerE 3].filterMap elemToSeq,
            (([TreeElem.seqE [1, 2], TreeElem.other 9,
              TreeElem.layerE 3].filterMap elemToSeq).map fun _ => (1 : ℚ)).dropLast ++ [0])) ∧
      ([TreeElem.seqE [1, 2], TreeElem.other 9, TreeElem.layerE 3].filterMap elemToSeq = [] →
        MergeBroadcast.init [TreeElem.seqE [1, 2], TreeElem.other 9, TreeElem.layerE 3] =
          Except.error "IndexError: list assignment index out of range")) :=
  ⟨⟨⟨9, by decide⟩, by decide⟩,
    incompatible_element_skipped_unless_empty _ ⟨9, by decide⟩ (by decide)⟩

end Neon
